import Mathlib

/-!
Verification of the linkerd service-profile conversion engine.

A shallow embedding of the OpenAPI-to-service-profile conversion code in
`cli/cmd/profile.go`: the path-pattern translator (`pathToRegex`), the route
enumerator (`renderOpenAPI`'s core loop) and the response classifier
(`toRspClasses`).  All machine behaviour is modelled over `List Char` /
`String`, `Int` and `Nat` with explicit two's-complement truncation where the
code converts `int` to `uint32`.
-/

namespace Profile

/-- The characters Go's `regexp.QuoteMeta` escapes: `\.+*?()|[]{}^$`. -/
def goSpecial (c : Char) : Bool :=
  c = '\\' || c = '.' || c = '+' || c = '*' || c = '?' || c = '(' || c = ')' ||
  c = '|' || c = '[' || c = ']' || c = '{' || c = '}' || c = '^' || c = '$'

/-- Go's `regexp.QuoteMeta`: insert a backslash before every special
character.  (Only ASCII characters are special, so working rune-by-rune is
byte-faithful for UTF-8 input.) -/
def quoteMeta : List Char → List Char
  | [] => []
  | c :: t => if goSpecial c then '\\' :: c :: quoteMeta t else c :: quoteMeta t

/-- The replacement text the code substitutes for a placeholder:
the wildcard-segment token `[^/]*`. -/
def wildTok : List Char := ['[', '^', '/', ']', '*']

/-- The continuation of a match of the pattern `\{[^}]*\}` (the compiled
`pathParamRegex`) after its leading `\{` has been consumed: RE2 consumes
characters other than `}` until the two-character sequence `\}` is reached,
and returns the remainder of the input after the match.  `none` means the
pattern does not match here. -/
def matchTail : List Char → Option (List Char)
  | [] => none
  | c :: t =>
    if c = '}' then none
    else if c = '\\' then
      match t with
      | '}' :: t2 => some t2
      | _ => matchTail t
    else matchTail t

/-- One pass of Go's `ReplaceAllLiteralString` for the fixed pattern
`\{[^}]*\}`, scanning left to right for leftmost non-overlapping matches.
`fuel` bounds the recursion; one unit is spent per scanned position, so
`fuel = length` always suffices (every step strictly shortens the input). -/
def replaceParamsF : Nat → List Char → List Char
  | 0, l => l
  | _ + 1, [] => []
  | n + 1, c :: t =>
    if c = '\\' then
      match t with
      | '{' :: r =>
        match matchTail r with
        | some t2 => wildTok ++ replaceParamsF n t2
        | none => c :: replaceParamsF n t
      | _ => c :: replaceParamsF n t
    else c :: replaceParamsF n t

/-- The call `pathParamRegex.ReplaceAllLiteralString(l, "[^/]*")`. -/
def replaceParams (l : List Char) : List Char := replaceParamsF l.length l

/-- The function `pathToRegex` from `profile.go`, on character lists:
escape the whole template, then replace every escaped placeholder span with
the wildcard token. -/
def pathToRegexL (l : List Char) : List Char := replaceParams (quoteMeta l)

/-- The function `pathToRegex` from `profile.go`. -/
def pathToRegex (s : String) : String := String.mk (pathToRegexL s.data)

example : pathToRegex "/books/\x7bid\x7d.json" = "/books/[^/]*\\.json" := by decide
example : pathToRegex "\x7ba\x7d\x7bb\x7d" = "[^/]*[^/]*" := by decide
example : pathToRegex "/ping" = "/ping" := by decide
example : pathToRegex "\x7b\x7b\x7d\x7d" = "[^/]*\\\x7d" := by decide
example : pathToRegex "/a\x7bb" = "/a\\\x7bb" := by decide

/-- Drop characters up to and including the first `}`; `none` if there is no
`}`.  Used to describe, on the raw template, which span the placeholder
pattern consumes. -/
def dropToRBrace : List Char → Option (List Char)
  | [] => none
  | c :: t => if c = '}' then some t else dropToRBrace t

/-- A reference rendering of `pathToRegex`, written as a single left-to-right
scan of the raw template: at an opening brace, if some `}` follows, the whole
span up to and including the first such `}` becomes the wildcard token;
otherwise every character is escaped exactly as `quoteMeta` does. -/
def specTranslateF : Nat → List Char → List Char
  | 0, _ => []
  | _ + 1, [] => []
  | k + 1, c :: t =>
    if c = '{' then
      match dropToRBrace t with
      | some t2 => wildTok ++ specTranslateF k t2
      | none => '\\' :: '{' :: specTranslateF k t
    else if goSpecial c then '\\' :: c :: specTranslateF k t
    else c :: specTranslateF k t

/-- Fuel-saturated wrapper of `specTranslateF`. -/
def specTranslate (l : List Char) : List Char := specTranslateF l.length l

/- Unfolding equations. -/

theorem matchTail_cons (c : Char) (t : List Char) :
    matchTail (c :: t) =
      if c = '}' then none
      else if c = '\\' then
        (match t with | '}' :: t2 => some t2 | _ => matchTail t)
      else matchTail t := rfl

theorem matchTail_rb (t : List Char) : matchTail ('}' :: t) = none := rfl

theorem matchTail_bs_rb (t : List Char) : matchTail ('\\' :: '}' :: t) = some t := rfl

theorem matchTail_ns (c : Char) (t : List Char) (h1 : c ≠ '}') (h2 : c ≠ '\\') :
    matchTail (c :: t) = matchTail t := by
  rw [matchTail_cons, if_neg h1, if_neg h2]

theorem matchTail_bs_ns (c : Char) (t : List Char) (h : c ≠ '}') :
    matchTail ('\\' :: c :: t) = matchTail (c :: t) := by
  rw [matchTail_cons, if_neg (by decide : ('\\' : Char) ≠ '}'), if_pos rfl]
  split
  · next t2 heq =>
    exact absurd (List.cons.injEq .. ▸ congrArg id heq) (by simp [h])
  · rfl

theorem matchTail_bs_safe (t : List Char) (h : ∀ r, t ≠ '}' :: r) :
    matchTail ('\\' :: t) = matchTail t := by
  cases t with
  | nil => rfl
  | cons q t' =>
    have hq : q ≠ '}' := fun hq => h t' (by rw [hq])
    exact matchTail_bs_ns q t' hq

theorem replaceParamsF_nil (n : Nat) : replaceParamsF n [] = [] := by
  cases n <;> rfl

theorem replaceParamsF_cons (n : Nat) (c : Char) (t : List Char) :
    replaceParamsF (n + 1) (c :: t) =
      if c = '\\' then
        (match t with
         | '{' :: r =>
           (match matchTail r with
            | some t2 => wildTok ++ replaceParamsF n t2
            | none => c :: replaceParamsF n t)
         | _ => c :: replaceParamsF n t)
      else c :: replaceParamsF n t := rfl

theorem replaceParamsF_bs_lb (n : Nat) (r : List Char) :
    replaceParamsF (n + 1) ('\\' :: '{' :: r) =
      match matchTail r with
      | some t2 => wildTok ++ replaceParamsF n t2
      | none => '\\' :: replaceParamsF n ('{' :: r) := rfl

theorem replaceParamsF_ns (n : Nat) (c : Char) (t : List Char) (h : c ≠ '\\') :
    replaceParamsF (n + 1) (c :: t) = c :: replaceParamsF n t := by
  rw [replaceParamsF_cons, if_neg h]

theorem replaceParamsF_bs_ns (n : Nat) (c : Char) (t : List Char) (h : c ≠ '{') :
    replaceParamsF (n + 1) ('\\' :: c :: t) = '\\' :: replaceParamsF n (c :: t) := by
  rw [replaceParamsF_cons, if_pos rfl]
  split
  · next r heq =>
    exact absurd (List.cons.injEq .. ▸ congrArg id heq) (by simp [h])
  · rfl

theorem replaceParamsF_bs_safe (n : Nat) (t : List Char) (h : ∀ r, t ≠ '{' :: r) :
    replaceParamsF (n + 1) ('\\' :: t) = '\\' :: replaceParamsF n t := by
  cases t with
  | nil => rfl
  | cons q t' =>
    have hq : q ≠ '{' := fun hq => h t' (by rw [hq])
    exact replaceParamsF_bs_ns n q t' hq

theorem quoteMeta_cons_special (c : Char) (t : List Char) (h : goSpecial c = true) :
    quoteMeta (c :: t) = '\\' :: c :: quoteMeta t := by
  simp [quoteMeta, h]

theorem quoteMeta_cons_plain (c : Char) (t : List Char) (h : goSpecial c = false) :
    quoteMeta (c :: t) = c :: quoteMeta t := by
  simp [quoteMeta, h]

/-- The first character of an escaped string is never a brace: braces are
special, so they always appear right after a backslash. -/
theorem quoteMeta_head_not_brace :
    ∀ (t : List Char) {c : Char} {r : List Char},
      quoteMeta t = c :: r → c ≠ '{' ∧ c ≠ '}' := by
  intro t c r h
  match t with
  | [] => simp [quoteMeta] at h
  | c' :: t' =>
    rcases hs : goSpecial c' with _ | _
    · rw [quoteMeta_cons_plain c' t' hs] at h
      obtain ⟨rfl, -⟩ := List.cons.injEq .. ▸ h
      constructor <;> rintro rfl <;> simp [goSpecial] at hs
    · rw [quoteMeta_cons_special c' t' hs] at h
      obtain ⟨rfl, -⟩ := List.cons.injEq .. ▸ h
      exact ⟨by decide, by decide⟩

/-- On an escaped string, the placeholder pattern's tail (`[^}]*\}`) consumes
exactly the escape of the raw span up to and including the first raw `}`. -/
theorem matchTail_quoteMeta :
    ∀ t : List Char, matchTail (quoteMeta t) = (dropToRBrace t).map quoteMeta := by
  intro t
  induction t with
  | nil => rfl
  | cons c t ih =>
    by_cases hrb : c = '}'
    · subst hrb
      rw [quoteMeta_cons_special '}' t (by decide), matchTail_bs_rb]
      simp [dropToRBrace]
    · rcases hs : goSpecial c with _ | _
      · rw [quoteMeta_cons_plain c t hs]
        have hbs : c ≠ '\\' := by rintro rfl; simp [goSpecial] at hs
        rw [matchTail_ns c (quoteMeta t) hrb hbs, ih]
        simp [dropToRBrace, hrb]
      · rw [quoteMeta_cons_special c t hs]
        by_cases hbs : c = '\\'
        · subst hbs
          rw [matchTail_bs_ns '\\' (quoteMeta t) (by decide)]
          rw [matchTail_bs_safe (quoteMeta t)
            (fun r hr => (quoteMeta_head_not_brace t hr).2 rfl), ih]
          simp [dropToRBrace, hrb]
        · rw [matchTail_bs_ns c (quoteMeta t) hrb,
            matchTail_ns c (quoteMeta t) hrb hbs, ih]
          simp [dropToRBrace, hrb]

theorem matchTail_length :
    ∀ (l t2 : List Char), matchTail l = some t2 → t2.length + 2 ≤ l.length := by
  intro l
  induction l with
  | nil => intro t2 h; simp [matchTail] at h
  | cons c t ih =>
    intro t2 h
    by_cases hbs : c = '\\'
    · subst hbs
      cases t with
      | nil => exact absurd h (by simp [matchTail])
      | cons d t' =>
        by_cases hd : d = '}'
        · subst hd
          rw [matchTail_bs_rb] at h
          obtain rfl : t' = t2 := by injection h
          simp
        · rw [matchTail_bs_ns d t' hd] at h
          have := ih t2 h
          simp only [List.length_cons] at this ⊢
          omega
    · by_cases hrb : c = '}'
      · subst hrb
        exact absurd h (by simp [matchTail_rb])
      · rw [matchTail_ns c t hrb hbs] at h
        have := ih t2 h
        simp only [List.length_cons]
        omega

theorem dropToRBrace_length :
    ∀ (l t2 : List Char), dropToRBrace l = some t2 → t2.length < l.length := by
  intro l
  induction l with
  | nil => intro t2 h; simp [dropToRBrace] at h
  | cons c t ih =>
    intro t2 h
    rw [dropToRBrace] at h
    split at h
    · obtain rfl : t = t2 := by injection h
      simp
    · have := ih t2 h
      simp only [List.length_cons]
      omega

theorem specTranslateF_nil (k : Nat) : specTranslateF k [] = [] := by
  cases k <;> rfl

theorem specTranslateF_cons (k : Nat) (c : Char) (t : List Char) :
    specTranslateF (k + 1) (c :: t) =
      if c = '{' then
        (match dropToRBrace t with
         | some t2 => wildTok ++ specTranslateF k t2
         | none => '\\' :: '{' :: specTranslateF k t)
      else if goSpecial c then '\\' :: c :: specTranslateF k t
      else c :: specTranslateF k t := rfl

/-- The fuel argument of `specTranslateF` is irrelevant once it is at least
the length of the input. -/
theorem specTranslateF_congr :
    ∀ (k : Nat) (l : List Char), l.length ≤ k →
      ∀ n m, l.length ≤ n → l.length ≤ m → specTranslateF n l = specTranslateF m l := by
  intro k
  induction k with
  | zero =>
    intro l hl n m _ _
    obtain rfl : l = [] := List.length_eq_zero.mp (Nat.le_zero.mp hl)
    rw [specTranslateF_nil, specTranslateF_nil]
  | succ k ih =>
    intro l hl n m hn hm
    match l with
    | [] => rw [specTranslateF_nil, specTranslateF_nil]
    | c :: t =>
      simp only [List.length_cons] at hl hn hm
      obtain ⟨n', rfl⟩ : ∃ n', n = n' + 1 := ⟨n - 1, by omega⟩
      obtain ⟨m', rfl⟩ : ∃ m', m = m' + 1 := ⟨m - 1, by omega⟩
      rw [specTranslateF_cons, specTranslateF_cons]
      by_cases hlb : c = '{'
      · rw [if_pos hlb, if_pos hlb]
        cases hd : dropToRBrace t with
        | some t2 =>
          have hlen := dropToRBrace_length t t2 hd
          show wildTok ++ specTranslateF n' t2 = wildTok ++ specTranslateF m' t2
          rw [ih t2 (by omega) n' m' (by omega) (by omega)]
        | none =>
          show '\\' :: '{' :: specTranslateF n' t = '\\' :: '{' :: specTranslateF m' t
          rw [ih t (by omega) n' m' (by omega) (by omega)]
      · rw [if_neg hlb, if_neg hlb]
        rcases goSpecial c with _ | _ <;>
          simp only [Bool.false_eq_true, if_false, if_true] <;>
          rw [ih t (by omega) n' m' (by omega) (by omega)]

/- Clean, fuel-free unfolding equations for `specTranslate`. -/

theorem specTranslate_nil : specTranslate [] = [] := rfl

theorem specTranslate_lb (t : List Char) :
    specTranslate ('{' :: t) =
      match dropToRBrace t with
      | some t2 => wildTok ++ specTranslate t2
      | none => '\\' :: '{' :: specTranslate t := by
  show specTranslateF (t.length + 1) ('{' :: t) = _
  rw [specTranslateF_cons, if_pos rfl]
  cases hd : dropToRBrace t with
  | some t2 =>
    have hlen := dropToRBrace_length t t2 hd
    show wildTok ++ specTranslateF t.length t2 = wildTok ++ specTranslateF t2.length t2
    rw [specTranslateF_congr t.length t2 (by omega) t.length t2.length (by omega) le_rfl]
  | none => rfl

theorem specTranslate_ns (c : Char) (t : List Char) (h : c ≠ '{') :
    specTranslate (c :: t) =
      (if goSpecial c then ['\\', c] else [c]) ++ specTranslate t := by
  show specTranslateF (t.length + 1) (c :: t) = _
  rw [specTranslateF_cons, if_neg h]
  rcases goSpecial c with _ | _ <;> simp [specTranslate]

/-- Main translator equivalence: the code's escape-then-substitute pass
computes exactly the single left-to-right scan `specTranslate`. -/
theorem replaceParamsF_quoteMeta :
    ∀ (k : Nat) (l : List Char), l.length ≤ k →
      ∀ n, (quoteMeta l).length ≤ n →
        replaceParamsF n (quoteMeta l) = specTranslateF k l := by
  intro k
  induction k with
  | zero =>
    intro l hl n _
    obtain rfl : l = [] := List.length_eq_zero.mp (Nat.le_zero.mp hl)
    show replaceParamsF n [] = _
    rw [replaceParamsF_nil, specTranslateF_nil]
  | succ k ih =>
    intro l hl n hn
    match l with
    | [] =>
      show replaceParamsF n [] = _
      rw [replaceParamsF_nil, specTranslateF_nil]
    | c :: t =>
      simp only [List.length_cons] at hl
      rw [specTranslateF_cons]
      by_cases hlb : c = '{'
      · subst hlb
        rw [if_pos rfl]
        rw [quoteMeta_cons_special '{' t (by decide)] at hn ⊢
        simp only [List.length_cons] at hn
        obtain ⟨n1, rfl⟩ : ∃ n1, n = n1 + 1 := ⟨n - 1, by omega⟩
        rw [replaceParamsF_bs_lb, matchTail_quoteMeta t]
        cases hd : dropToRBrace t with
        | some t2 =>
          have hlen := dropToRBrace_length t t2 hd
          have hmt : matchTail (quoteMeta t) = some (quoteMeta t2) := by
            rw [matchTail_quoteMeta t, hd]; rfl
          have hql := matchTail_length (quoteMeta t) (quoteMeta t2) hmt
          show wildTok ++ replaceParamsF n1 (quoteMeta t2) = wildTok ++ specTranslateF k t2
          rw [ih t2 (by omega) n1 (by omega)]
        | none =>
          show '\\' :: replaceParamsF n1 ('{' :: quoteMeta t) = '\\' :: '{' :: specTranslateF k t
          obtain ⟨n2, rfl⟩ : ∃ n2, n1 = n2 + 1 := ⟨n1 - 1, by omega⟩
          rw [replaceParamsF_ns n2 '{' (quoteMeta t) (by decide)]
          rw [ih t (by omega) n2 (by omega)]
      · rw [if_neg hlb]
        rcases hs : goSpecial c with _ | _
        · rw [quoteMeta_cons_plain c t hs] at hn ⊢
          simp only [List.length_cons] at hn
          obtain ⟨n1, rfl⟩ : ∃ n1, n = n1 + 1 := ⟨n - 1, by omega⟩
          have hbs : c ≠ '\\' := by rintro rfl; simp [goSpecial] at hs
          rw [replaceParamsF_ns n1 c (quoteMeta t) hbs]
          simp only [Bool.false_eq_true, if_false]
          rw [ih t (by omega) n1 (by omega)]
        · rw [quoteMeta_cons_special c t hs] at hn ⊢
          simp only [List.length_cons] at hn
          obtain ⟨n1, rfl⟩ : ∃ n1, n = n1 + 1 := ⟨n - 1, by omega⟩
          simp only [if_true]
          by_cases hbs : c = '\\'
          · subst hbs
            rw [replaceParamsF_bs_ns n1 '\\' (quoteMeta t) (by decide)]
            obtain ⟨n2, rfl⟩ : ∃ n2, n1 = n2 + 1 := ⟨n1 - 1, by omega⟩
            rw [replaceParamsF_bs_safe n2 (quoteMeta t)
              (fun r hr => (quoteMeta_head_not_brace t hr).1 rfl)]
            rw [ih t (by omega) n2 (by omega)]
          · rw [replaceParamsF_bs_ns n1 c (quoteMeta t) hlb]
            obtain ⟨n2, rfl⟩ : ∃ n2, n1 = n2 + 1 := ⟨n1 - 1, by omega⟩
            rw [replaceParamsF_ns n2 c (quoteMeta t) hbs]
            rw [ih t (by omega) n2 (by omega)]

/-- The translator `pathToRegex` computes the reference scan `specTranslate`, for every
template string. -/
theorem pathToRegexL_eq_specTranslate (l : List Char) :
    pathToRegexL l = specTranslate l :=
  replaceParamsF_quoteMeta l.length l le_rfl (quoteMeta l).length le_rfl

/-- The claim's notion of a placeholder token: after an opening brace, the
content up to the closing brace must contain no nested braces at all.
Returns the remainder after the closing brace, or `none` if the span up to
the first brace-like character is not such a placeholder. -/
def scanPlaceholder : List Char → Option (List Char)
  | [] => none
  | c :: t =>
    if c = '}' then some t
    else if c = '{' then none
    else scanPlaceholder t

/-- Translation of a template as literally described by the claim: escape
every character except that each maximal brace-delimited span containing no
nested braces is replaced, as a unit, by the wildcard token. -/
def claimTranslateF : Nat → List Char → List Char
  | 0, _ => []
  | _ + 1, [] => []
  | k + 1, c :: t =>
    if c = '{' then
      match scanPlaceholder t with
      | some t2 => wildTok ++ claimTranslateF k t2
      | none => '\\' :: '{' :: claimTranslateF k t
    else if goSpecial c then '\\' :: c :: claimTranslateF k t
    else c :: claimTranslateF k t

/-- Fuel-saturated wrapper of `claimTranslateF`. -/
def claimTranslate (l : List Char) : List Char := claimTranslateF l.length l

theorem dropToRBrace_eq_none :
    ∀ l : List Char, '}' ∉ l → dropToRBrace l = none := by
  intro l
  induction l with
  | nil => intro _; rfl
  | cons c t ih =>
    intro h
    have hc : ¬(c = '}') := fun hc => h (by rw [hc]; exact List.mem_cons_self _ _)
    rw [dropToRBrace, if_neg hc]
    exact ih fun hm => h (List.mem_cons_of_mem c hm)

theorem dropToRBrace_append :
    ∀ (a r : List Char), '}' ∉ a → dropToRBrace (a ++ '}' :: r) = some r := by
  intro a r
  induction a with
  | nil => intro _; simp [dropToRBrace]
  | cons c t ih =>
    intro h
    have hc : ¬(c = '}') := fun hc => h (by rw [hc]; exact List.mem_cons_self _ _)
    rw [List.cons_append, dropToRBrace, if_neg hc]
    exact ih fun hm => h (List.mem_cons_of_mem c hm)

/-- On a template with no closing brace the scan escapes every character:
no wildcard substitution happens at all. -/
theorem specTranslate_no_rb :
    ∀ l : List Char, '}' ∉ l → specTranslate l = quoteMeta l := by
  intro l
  induction l with
  | nil => intro _; rfl
  | cons c t ih =>
    intro h
    have ht : '}' ∉ t := fun hm => h (List.mem_cons_of_mem c hm)
    by_cases hlb : c = '{'
    · subst hlb
      rw [specTranslate_lb, dropToRBrace_eq_none t ht]
      rw [quoteMeta_cons_special '{' t (by decide)]
      show '\\' :: '{' :: specTranslate t = _
      rw [ih ht]
    · rw [specTranslate_ns c t hlb, ih ht]
      rcases hs : goSpecial c with _ | _
      · rw [quoteMeta_cons_plain c t hs]; simp
      · rw [quoteMeta_cons_special c t hs]; simp

/- ### A matching semantics for the emitted patterns

The emitted route patterns use only two constructs: escaped/literal
characters and the wildcard-segment token `[^/]*` ("zero or more characters
excluding the path separator `/`", per the spec).  We give this sublanguage
an anchored matching semantics to settle the matching claims. -/

/-- A token of an emitted route pattern. -/
inductive RTok where
  | lit : Char → RTok
  | wild : RTok
deriving DecidableEq

/-- Parse an emitted pattern string into tokens: the five-character wildcard
token, backslash-escaped literals, and plain literals. -/
def parsePat : List Char → Option (List RTok)
  | [] => some []
  | '[' :: '^' :: '/' :: ']' :: '*' :: t => (parsePat t).map (RTok.wild :: ·)
  | '\\' :: c :: t => (parsePat t).map (RTok.lit c :: ·)
  | c :: t => (parsePat t).map (RTok.lit c :: ·)

/-- Anchored matching of a token list against a path.  A literal matches
exactly itself; the wildcard matches zero or more characters none of which
is `/`.  `fuel` bounds the recursion; `tokens + input + 1` always
suffices since every step shrinks `tokens + input`. -/
def rmatchF : Nat → List RTok → List Char → Bool
  | 0, _, _ => false
  | _ + 1, [], s => s.isEmpty
  | n + 1, RTok.lit c :: ts, s =>
    match s with
    | [] => false
    | d :: ds => c = d && rmatchF n ts ds
  | n + 1, RTok.wild :: ts, s =>
    rmatchF n ts s ||
      (match s with
       | [] => false
       | d :: ds => decide (d ≠ '/') && rmatchF n (RTok.wild :: ts) ds)

/-- Fuel-saturated anchored matcher. -/
def rmatch (ts : List RTok) (s : List Char) : Bool :=
  rmatchF (ts.length + s.length + 1) ts s

/-- Does the emitted pattern `pat` match the full path `s`? -/
def patMatches (pat s : String) : Bool :=
  match parsePat pat.data with
  | some ts => rmatch ts s.data
  | none => false

example : patMatches "/books/[^/]*\\.json" "/books/123.json" = true := by decide
example : patMatches "/books/[^/]*\\.json" "/books/123/extra.json" = false := by decide
example : patMatches "/books/[^/]*\\.json" "/books/.json" = true := by decide

/- ### The service-profile data model

Mirrors the Go types consumed and produced by `renderOpenAPI`:
`spec.Operation` (only its `Responses` status-code keys are consulted),
`spec.PathItem` (the seven optional per-method operations), and linkerd's
`RouteSpec` / `RequestMatch` / `ResponseClass` / `Range`.  A Go map is
embedded as an association list of its entries together with iteration-order
freedom (see `DocEquiv` below); `renderOpenAPI` sorts the keys before use. -/

/-- An OpenAPI operation; we keep only the data the code consults: the key
set of `Responses.StatusCodeResponses` (`none` models a nil `Responses`
pointer). -/
structure Operation where
  responses : Option (List Int)
deriving DecidableEq

/-- An OpenAPI path item: at most one operation per HTTP method. -/
structure PathItem where
  delete : Option Operation
  get : Option Operation
  head : Option Operation
  options : Option Operation
  patch : Option Operation
  post : Option Operation
  put : Option Operation
deriving DecidableEq

/-- A closed status-code range (`sp.Range`, `uint32` bounds). -/
structure Range where
  min : Nat
  max : Nat
deriving DecidableEq

/-- The type `sp.ResponseMatch`: we model the only field the code sets. -/
structure ResponseMatch where
  status : Range
deriving DecidableEq

/-- The type `sp.ResponseClass`. -/
structure ResponseClass where
  condition : ResponseMatch
  isFailure : Bool
deriving DecidableEq

/-- The type `sp.RequestMatch`: we model the two fields the code sets. -/
structure RequestMatch where
  pathRegex : String
  method : String
deriving DecidableEq

/-- The type `sp.RouteSpec`. -/
structure RouteSpec where
  name : String
  condition : RequestMatch
  responseClasses : List ResponseClass
deriving DecidableEq

/-- Go's `uint32(status)` conversion of an `int` status code:
two's-complement truncation to 32 bits. -/
def u32 (status : Int) : Nat := (status % 4294967296).toNat

/-- Go's `sort.Ints`: ascending sort. -/
def sortInts (l : List Int) : List Int := l.insertionSort (· ≤ ·)

/-- The function `toRspClasses` from `profile.go`: collect the declared status codes,
sort ascending, and emit one degenerate-range class per code, failing iff
the code is at least 500. -/
def toRspClasses : Option (List Int) → List ResponseClass
  | none => []
  | some statuses =>
    (sortInts statuses).map fun status =>
      { condition := { status := { min := u32 status, max := u32 status } }
        isFailure := decide (500 ≤ status) }

/-- The function `toReqMatch` from `profile.go`. -/
def toReqMatch (path method : String) : RequestMatch :=
  { pathRegex := path, method := method }

/-- The function `mkRouteSpec` from `profile.go`: the rule name is the method and the
original (untranslated) template joined by one space. -/
def mkRouteSpec (path pathRegex method : String) (responses : Option (List Int)) :
    RouteSpec :=
  { name := method ++ " " ++ path
    condition := toReqMatch pathRegex method
    responseClasses := toRspClasses responses }

/-- One `if item.X != nil { routes = append(...) }` branch of the loop. -/
def optRoute (path pathRegex method : String) : Option Operation → List RouteSpec
  | some op => [mkRouteSpec path pathRegex method op.responses]
  | none => []

/-- The per-path body of `renderOpenAPI`'s loop: the seven methods are
always tried in the fixed order DELETE, GET, HEAD, OPTIONS, PATCH, POST,
PUT. -/
def routesFor (path : String) (item : PathItem) : List RouteSpec :=
  optRoute path (pathToRegex path) "DELETE" item.delete ++
  optRoute path (pathToRegex path) "GET" item.get ++
  optRoute path (pathToRegex path) "HEAD" item.head ++
  optRoute path (pathToRegex path) "OPTIONS" item.options ++
  optRoute path (pathToRegex path) "PATCH" item.patch ++
  optRoute path (pathToRegex path) "POST" item.post ++
  optRoute path (pathToRegex path) "PUT" item.put

/-- Lexicographic (codepoint, hence UTF-8 byte) order on strings, the order
Go's `sort.Strings` sorts by. -/
def strLe (a b : String) : Prop := a.data ≤ b.data

instance : DecidableRel strLe :=
  fun a b => inferInstanceAs (Decidable (a.data ≤ b.data))

instance : IsTotal String strLe := ⟨fun a b => le_total a.data b.data⟩

instance : IsTrans String strLe := ⟨fun _ _ _ => le_trans⟩

instance : IsAntisymm String strLe :=
  ⟨fun a b h1 h2 => by
    cases a; cases b
    exact congrArg String.mk (le_antisymm h1 h2)⟩

/-- Go's `sort.Strings`: ascending lexicographic sort. -/
def sortStrings (l : List String) : List String := l.insertionSort strLe

/-- A parsed OpenAPI document as the core consumes it: the entries of
`swagger.Paths.Paths` (`none` models a nil `Paths` pointer). -/
def SwaggerPaths : Type := Option (List (String × PathItem))

/-- The keys of the paths map. -/
def pathKeys (paths : List (String × PathItem)) : List String :=
  paths.map Prod.fst

/-- The map read `swagger.Paths.Paths[path]`: a Go map read returns the zero value
(a path item with all seven operations nil) when the key is absent. -/
def lookupItem (paths : List (String × PathItem)) (p : String) : PathItem :=
  (paths.lookup p).getD ⟨none, none, none, none, none, none, none⟩

/-- The core of `renderOpenAPI`: collect the path keys, sort them, then walk
each path's methods in the fixed canonical order. -/
def renderRoutes (swaggerPaths : SwaggerPaths) : List RouteSpec :=
  match swaggerPaths with
  | none => []
  | some paths =>
    (sortStrings (pathKeys paths)).flatMap fun p => routesFor p (lookupItem paths p)

/-- The fixed canonical method order of the loop. -/
def canonicalMethods : List String :=
  ["DELETE", "GET", "HEAD", "OPTIONS", "PATCH", "POST", "PUT"]

/-- The operation a path item declares for a canonical method name. -/
def opFor (item : PathItem) : String → Option Operation
  | "DELETE" => item.delete
  | "GET" => item.get
  | "HEAD" => item.head
  | "OPTIONS" => item.options
  | "PATCH" => item.patch
  | "POST" => item.post
  | "PUT" => item.put
  | _ => none

/-- The number of operations a path item declares. -/
def countOps (item : PathItem) : Nat :=
  (canonicalMethods.filter fun m => (opFor item m).isSome).length

theorem opFor_delete (item : PathItem) : opFor item "DELETE" = item.delete := rfl
theorem opFor_get (item : PathItem) : opFor item "GET" = item.get := rfl
theorem opFor_head (item : PathItem) : opFor item "HEAD" = item.head := rfl
theorem opFor_options (item : PathItem) : opFor item "OPTIONS" = item.options := rfl
theorem opFor_patch (item : PathItem) : opFor item "PATCH" = item.patch := rfl
theorem opFor_post (item : PathItem) : opFor item "POST" = item.post := rfl
theorem opFor_put (item : PathItem) : opFor item "PUT" = item.put := rfl

theorem optRoute_eq_toList (path rx m : String) (o : Option Operation) :
    optRoute path rx m o =
      (o.map fun op => mkRouteSpec path rx m op.responses).toList := by
  cases o <;> rfl

theorem filterMap_cons_toList {α β : Type} (f : α → Option β) (a : α) (l : List α) :
    List.filterMap f (a :: l) = (f a).toList ++ List.filterMap f l := by
  cases h : f a <;> simp [List.filterMap_cons, h]

theorem filterMap_const_map {α β γ : Type} (l : List α) (o : α → Option β) (g : α → γ) :
    List.filterMap (fun a => (o a).map fun _ => g a) l =
      (l.filter fun a => (o a).isSome).map g := by
  induction l with
  | nil => rfl
  | cons a t ih => cases h : o a <;> simp [List.filterMap_cons, List.filter_cons, h, ih]

/-- The seven-way method branching of the loop body is a `filterMap` over
the canonical method list. -/
theorem routesFor_eq_filterMap (p : String) (item : PathItem) :
    routesFor p item =
      canonicalMethods.filterMap
        (fun m => (opFor item m).map fun op =>
          mkRouteSpec p (pathToRegex p) m op.responses) := by
  simp only [canonicalMethods, filterMap_cons_toList, List.filterMap_nil,
    List.append_nil, opFor_delete, opFor_get, opFor_head, opFor_options,
    opFor_patch, opFor_post, opFor_put]
  simp [routesFor, optRoute_eq_toList, List.append_assoc]

/-- The emitted rule names of one path, in order: the declared methods, in
canonical order, each joined to the template with one space. -/
theorem routesFor_names (p : String) (item : PathItem) :
    (routesFor p item).map (fun r => r.name) =
      (canonicalMethods.filter fun m => (opFor item m).isSome).map
        (fun m => m ++ " " ++ p) := by
  rw [routesFor_eq_filterMap, List.map_filterMap]
  rw [show (fun m => Option.map (fun r => r.name)
        ((opFor item m).map fun op => mkRouteSpec p (pathToRegex p) m op.responses)) =
      fun m => (opFor item m).map fun _ => m ++ " " ++ p from
    funext fun m => by cases opFor item m <;> rfl]
  exact filterMap_const_map canonicalMethods (opFor item) _

/-- The emitted methods of one path, in order: the canonical list filtered
to the declared operations. -/
theorem routesFor_methods (p : String) (item : PathItem) :
    (routesFor p item).map (fun r => r.condition.method) =
      canonicalMethods.filter (fun m => (opFor item m).isSome) := by
  rw [routesFor_eq_filterMap, List.map_filterMap]
  rw [show (fun m => Option.map (fun r => r.condition.method)
        ((opFor item m).map fun op => mkRouteSpec p (pathToRegex p) m op.responses)) =
      fun m => (opFor item m).map fun _ => m from
    funext fun m => by cases opFor item m <;> rfl]
  rw [filterMap_const_map canonicalMethods (opFor item) (fun m => m)]
  simp

/-- One rule per declared operation of the path. -/
theorem routesFor_length (p : String) (item : PathItem) :
    (routesFor p item).length = countOps item := by
  have h := congrArg List.length (routesFor_names p item)
  simpa [countOps] using h

theorem optRoute_mem {r : RouteSpec} {path rx m : String} {o : Option Operation}
    (h : r ∈ optRoute path rx m o) :
    ∃ op, o = some op ∧ r = mkRouteSpec path rx m op.responses := by
  cases o with
  | none => simp [optRoute] at h
  | some op => exact ⟨op, rfl, by simpa [optRoute] using h⟩

/-- Every emitted rule's name is its method and its path template joined by
one space. -/
theorem routesFor_name_format (p : String) (item : PathItem) :
    ∀ r ∈ routesFor p item, r.name = r.condition.method ++ " " ++ p := by
  intro r hr
  simp only [routesFor, List.mem_append] at hr
  rcases hr with ((((((hr | hr) | hr) | hr) | hr) | hr) | hr) <;>
    · obtain ⟨op, -, rfl⟩ := optRoute_mem hr
      rfl

theorem parsePat_nil : parsePat [] = some [] := rfl

theorem parsePat_esc (c : Char) (t : List Char) :
    parsePat ('\\' :: c :: t) = (parsePat t).map (RTok.lit c :: ·) := rfl

theorem parsePat_plain (c : Char) (t : List Char) (h1 : ¬c = '[') (h2 : ¬c = '\\') :
    parsePat (c :: t) = (parsePat t).map (RTok.lit c :: ·) := by
  rw [parsePat.eq_def]
  split
  · next heq => simp at heq
  · next t2 heq =>
    obtain ⟨rfl, -⟩ := List.cons.injEq .. ▸ heq
    exact absurd rfl h1
  · next c2 t2 heq =>
    obtain ⟨rfl, -⟩ := List.cons.injEq .. ▸ heq
    exact absurd rfl h2
  · next c2 t2 heq =>
    obtain ⟨rfl, rfl⟩ := List.cons.injEq .. ▸ heq
    rfl

/-- An escaped template parses as the sequence of its literal characters:
`quoteMeta` never produces a wildcard token (`[` is itself escaped). -/
theorem parsePat_quoteMeta :
    ∀ l : List Char, parsePat (quoteMeta l) = some (l.map RTok.lit) := by
  intro l
  induction l with
  | nil => rfl
  | cons c t ih =>
    rcases hs : goSpecial c with _ | _
    · have h1 : ¬c = '[' := by rintro rfl; simp [goSpecial] at hs
      have h2 : ¬c = '\\' := by rintro rfl; simp [goSpecial] at hs
      rw [quoteMeta_cons_plain c t hs, parsePat_plain c (quoteMeta t) h1 h2, ih]
      rfl
    · rw [quoteMeta_cons_special c t hs, parsePat_esc c (quoteMeta t), ih]
      rfl

/-- A pattern made only of literal tokens matches exactly its own text. -/
theorem rmatchF_lits :
    ∀ (n : Nat) (l s : List Char), l.length + s.length < n →
      rmatchF n (l.map RTok.lit) s = decide (s = l) := by
  intro n
  induction n with
  | zero => intro l s h; omega
  | succ n ih =>
    intro l s h
    cases l with
    | nil =>
      cases s with
      | nil => rfl
      | cons d ds => simp [rmatchF]
    | cons c l' =>
      cases s with
      | nil => simp [rmatchF]
      | cons d ds =>
        show (decide (c = d) && rmatchF n (l'.map RTok.lit) ds) = _
        rw [ih l' ds (by simp only [List.length_cons] at h; omega)]
        simp only [List.cons.injEq]
        rcases Decidable.em (c = d) with hcd | hcd <;>
          rcases Decidable.em (ds = l') with hdl | hdl <;>
          simp [hcd, hdl, eq_comm]

theorem rmatch_lits (l s : List Char) :
    rmatch (l.map RTok.lit) s = decide (s = l) := by
  apply rmatchF_lits
  simp [List.length_map]

/- ### Claim theorems for the Path Pattern Translator -/

/-- C1 (counterexample): on the template `{{}}` the code does not replace
"a maximal brace-delimited span containing no nested braces" (which would be
the inner `{}`, giving `\{[^/]*\}`): its leftmost match starts at the FIRST
opening brace and runs to the first closing brace, giving `[^/]*\}`. -/
theorem pathToRegex_claim_counterexample :
    pathToRegex "\x7b\x7b\x7d\x7d" ≠
      String.mk (claimTranslate ("\x7b\x7b\x7d\x7d" : String).data) := by
  decide

/-- C1 (amended): for every template string, `pathToRegex` escapes every
character except that each leftmost span from an opening brace to the first
subsequent closing brace (content free of closing braces, but possibly
containing further opening braces) is replaced, as a unit, by the wildcard
token `[^/]*`; in particular a template with no braces at all translates to
exactly its escaped form. -/
theorem pathToRegex_eq_specTranslate :
    ∀ s : String,
      pathToRegex s = String.mk (specTranslate s.data) ∧
      ((s.data.all fun c => (c != '{') && (c != '}')) = true →
        pathToRegex s = String.mk (quoteMeta s.data)) := by
  intro s
  constructor
  · show String.mk (pathToRegexL s.data) = _
    rw [pathToRegexL_eq_specTranslate]
  · intro h
    simp only [List.all_eq_true, Bool.and_eq_true, bne_iff_ne, ne_eq] at h
    have h' : '}' ∉ s.data := fun hm => (h '}' hm).2 rfl
    show String.mk (pathToRegexL s.data) = _
    rw [pathToRegexL_eq_specTranslate, specTranslate_no_rb s.data h']

theorem pathToRegex_eq_specTranslate_witness :
    ((("/ping" : String).data.all fun c => (c != '{') && (c != '}')) = true) ∧
    pathToRegex "/ping" = String.mk (quoteMeta ("/ping" : String).data) :=
  ⟨by decide, (pathToRegex_eq_specTranslate "/ping").2 (by decide)⟩

/-- C6: the template `/books/{id}.json` translates to
`/books/[^/]*\.json`, which matches `/books/123.json` but not
`/books/123/extra.json` (the wildcard excludes `/`). -/
theorem books_template_matching :
    pathToRegex "/books/\x7bid\x7d.json" = "/books/[^/]*\\.json" ∧
    patMatches (pathToRegex "/books/\x7bid\x7d.json") "/books/123.json" = true ∧
    patMatches (pathToRegex "/books/\x7bid\x7d.json") "/books/123/extra.json" = false :=
  ⟨by decide, by decide, by decide⟩

/-- C7: adjacent placeholders each become their own wildcard token: the
translation of `{a}{b}`-shaped templates is two wildcard tokens in a row,
never one merged token. -/
theorem adjacent_placeholders_two_wildcards :
    (∀ a b : List Char, '}' ∉ a → '}' ∉ b →
      pathToRegexL ('{' :: (a ++ '}' :: ('{' :: (b ++ ['}'])))) = wildTok ++ wildTok) ∧
    pathToRegex "\x7ba\x7d\x7bb\x7d" = "[^/]*[^/]*" := by
  constructor
  · intro a b ha hb
    rw [pathToRegexL_eq_specTranslate, specTranslate_lb,
      dropToRBrace_append a ('{' :: (b ++ ['}'])) ha]
    show wildTok ++ specTranslate ('{' :: (b ++ ['}'])) = _
    rw [specTranslate_lb, show b ++ ['}'] = b ++ '}' :: [] from rfl,
      dropToRBrace_append b [] hb]
    show wildTok ++ (wildTok ++ specTranslate []) = _
    rw [specTranslate_nil]
    simp
  · decide

theorem adjacent_placeholders_witness :
    ('}' ∉ (['a'] : List Char)) ∧ ('}' ∉ (['b'] : List Char)) ∧
    pathToRegexL ('{' :: (['a'] ++ '}' :: ('{' :: (['b'] ++ ['}'])))) = wildTok ++ wildTok :=
  ⟨by decide, by decide,
    adjacent_placeholders_two_wildcards.1 ['a'] ['b'] (by decide) (by decide)⟩

/-- C10: a template containing no closing brace undergoes no wildcard
substitution: the translation is exactly the escaped template, and the
resulting pattern matches the template's own literal text and nothing
else. -/
theorem no_rbrace_template_escapes :
    ∀ s : String, '}' ∉ s.data →
      pathToRegex s = String.mk (quoteMeta s.data) ∧
      ∀ s2 : String, patMatches (pathToRegex s) s2 = decide (s2 = s) := by
  intro s h
  have h1 : pathToRegex s = String.mk (quoteMeta s.data) := by
    show String.mk (pathToRegexL s.data) = _
    rw [pathToRegexL_eq_specTranslate, specTranslate_no_rb s.data h]
  refine ⟨h1, fun s2 => ?_⟩
  rw [h1]
  show (match parsePat (quoteMeta s.data) with
    | some ts => rmatch ts s2.data
    | none => false) = _
  rw [parsePat_quoteMeta s.data]
  show rmatch (s.data.map RTok.lit) s2.data = _
  rw [rmatch_lits]
  exact decide_eq_decide.mpr String.ext_iff.symm

theorem no_rbrace_template_escapes_witness :
    ('}' ∉ ("/a\x7bb" : String).data) ∧
    (pathToRegex "/a\x7bb" = String.mk (quoteMeta ("/a\x7bb" : String).data) ∧
      ∀ s2 : String, patMatches (pathToRegex "/a\x7bb") s2 = decide (s2 = "/a\x7bb")) :=
  ⟨by decide, no_rbrace_template_escapes "/a\x7bb" (by decide)⟩

/- ### Claim theorems for the Response Classifier and Route Enumerator -/

/-- C2: a response class is a failure class iff its declared status code is
at least 500; the failure flags are a pure function of the (sorted) declared
codes, and in particular 404 and 200 are non-failures while 500 and 503 are
failures. -/
theorem isFailure_iff_code_ge_500 :
    (∀ l : List Int, (toRspClasses (some l)).map (fun c => c.isFailure) =
      (sortInts l).map fun s => decide (500 ≤ s)) ∧
    (toRspClasses (some [404, 200, 503, 500])).map (fun c => c.isFailure) =
      [false, false, true, true] := by
  constructor
  · intro l
    simp [toRspClasses, List.map_map]
  · decide

/-- The conclusion of claim C4, for one operation's declared code list: one
class per declared code (in particular as many classes as distinct codes),
the classes aligned with the ascending sort of the codes, and every class a
degenerate range. -/
def RspOnePerCode (l : List Int) : Prop :=
  (toRspClasses (some l)).length = l.length ∧
  (toRspClasses (some l)).map
      (fun c => (c.condition.status.min, c.condition.status.max)) =
    (sortInts l).map (fun s => (u32 s, u32 s)) ∧
  List.Sorted (· ≤ ·) (sortInts l) ∧
  (sortInts l).Perm l ∧ (sortInts l).Nodup ∧
  ∀ c ∈ toRspClasses (some l), c.condition.status.min = c.condition.status.max

/-- C4: one response class per distinct declared status code, sorted
ascending, each with a degenerate `min = max = code` range; no merging. -/
theorem toRspClasses_one_per_code (l : List Int) (h : l.Nodup) :
    RspOnePerCode l := by
  refine ⟨?_, ?_, List.sorted_insertionSort _ _, List.perm_insertionSort _ _,
    (List.perm_insertionSort _ l).nodup_iff.mpr h, ?_⟩
  · simp only [toRspClasses, List.length_map]
    exact (List.perm_insertionSort _ l).length_eq
  · simp [toRspClasses, List.map_map]
  · intro c hc
    simp only [toRspClasses, List.mem_map] at hc
    obtain ⟨s, -, rfl⟩ := hc
    rfl

theorem toRspClasses_one_per_code_witness :
    ([503, 200, 404, 500] : List Int).Nodup ∧ RspOnePerCode [503, 200, 404, 500] :=
  ⟨by decide, toRspClasses_one_per_code _ (by decide)⟩

/-- C3: the emitted rules are grouped by path, the path groups are in
ascending lexicographic order of the templates (a sorted permutation of the
document's keys), and within a path the methods appear in the fixed order
DELETE, GET, HEAD, OPTIONS, PATCH, POST, PUT, undeclared methods skipped. -/
theorem renderRoutes_sorted_canonical (paths : List (String × PathItem)) :
    renderRoutes (some paths) =
      (sortStrings (pathKeys paths)).flatMap
        (fun p => routesFor p (lookupItem paths p)) ∧
    List.Sorted strLe (sortStrings (pathKeys paths)) ∧
    (sortStrings (pathKeys paths)).Perm (pathKeys paths) ∧
    ∀ p item, (routesFor p item).map (fun r => r.condition.method) =
      canonicalMethods.filter fun m => (opFor item m).isSome :=
  ⟨rfl, List.sorted_insertionSort strLe _, List.perm_insertionSort strLe _,
    fun p item => routesFor_methods p item⟩

/-- C8: empty inputs are not errors: a nil or empty paths collection yields
no routes, and a nil or empty responses collection yields a rule with an
empty class list — never a default catch-all class. -/
theorem empty_inputs_yield_empty_lists :
    renderRoutes none = [] ∧ renderRoutes (some []) = [] ∧
    toRspClasses none = [] ∧ toRspClasses (some []) = [] ∧
    ∀ path rx m, (mkRouteSpec path rx m none).responseClasses = [] :=
  ⟨rfl, rfl, rfl, rfl, fun _ _ _ => rfl⟩

/- ### One rule per declared operation (C5) -/

/-- With distinct keys, looking every key back up recovers the entries. -/
theorem map_lookupItem_eq :
    ∀ (paths : List (String × PathItem)), (pathKeys paths).Nodup →
      (pathKeys paths).map (fun p => countOps (lookupItem paths p)) =
        paths.map fun pi => countOps pi.2 := by
  intro paths
  induction paths with
  | nil => intro _; rfl
  | cons qi rest ih =>
    intro h
    obtain ⟨q, i⟩ := qi
    simp only [pathKeys, List.map_cons] at h ⊢
    rw [List.nodup_cons] at h
    obtain ⟨hq, hrest⟩ := h
    have hhead : lookupItem ((q, i) :: rest) q = i := by
      simp [lookupItem, List.lookup_cons_self]
    rw [hhead]
    have htail : ∀ p ∈ rest.map Prod.fst,
        countOps (lookupItem ((q, i) :: rest) p) = countOps (lookupItem rest p) := by
      intro p hp
      have hpq : (p == q) = false := by
        rcases Decidable.em (p = q) with hh | hh
        · exact absurd (hh ▸ hp) hq
        · simpa using hh
      simp [lookupItem, List.lookup_cons, hpq]
    rw [List.map_congr_left htail]
    have := ih hrest
    simp only [pathKeys] at this
    rw [this]

/-- Appending `" " ++ p` on the right is injective in the method. -/
theorem append_space_cancel (m1 m2 p : String) (h : m1 ++ " " ++ p = m2 ++ " " ++ p) :
    m1 = m2 := by
  have hd := congrArg String.data h
  rw [String.data_append, String.data_append, String.data_append,
    String.data_append] at hd
  have h1 := List.append_cancel_right hd
  have h2 := List.append_cancel_right h1
  cases m1; cases m2
  exact congrArg String.mk h2

/-- The path-template part of an emitted rule name: everything after the
first space. -/
def nameTemplate (n : String) : String :=
  String.mk ((n.data.dropWhile fun c => c != ' ').tail)

theorem dropWhile_no_space :
    ∀ (md r : List Char), (∀ c ∈ md, (c != ' ') = true) →
      List.dropWhile (fun c => c != ' ') (md ++ ' ' :: r) = ' ' :: r := by
  intro md r
  induction md with
  | nil => intro _; simp [List.dropWhile]
  | cons c t ih =>
    intro h
    have hc := h c (List.mem_cons_self c t)
    rw [List.cons_append]
    simp only [List.dropWhile_cons, hc, if_true]
    exact ih fun c2 hc2 => h c2 (List.mem_cons_of_mem c hc2)

/-- A rule name determines its path template (methods contain no space). -/
theorem nameTemplate_of_method (m p : String) (hm : ∀ c ∈ m.data, (c != ' ') = true) :
    nameTemplate (m ++ " " ++ p) = p := by
  have hd : (m ++ " " ++ p).data = m.data ++ ' ' :: p.data := by
    rw [String.data_append, String.data_append]
    simp [List.append_assoc]
  rw [nameTemplate, hd, dropWhile_no_space m.data p.data hm, List.tail_cons]

theorem canonicalMethods_no_space :
    ∀ m ∈ canonicalMethods, ∀ c ∈ m.data, (c != ' ') = true := by decide

/-- The names within one path's group are distinct. -/
theorem routesFor_names_nodup (p : String) (item : PathItem) :
    ((routesFor p item).map (fun r => r.name)).Nodup := by
  rw [routesFor_names]
  apply List.Nodup.map_on
  · intro m1 _ m2 _ he
    exact append_space_cancel m1 m2 p he
  · exact List.Nodup.filter _ (by decide)

/-- Every name in one path's group carries that path as its template part. -/
theorem routesFor_names_template (p : String) (item : PathItem) (x : String)
    (hx : x ∈ (routesFor p item).map fun r => r.name) : nameTemplate x = p := by
  rw [routesFor_names] at hx
  obtain ⟨m, hm, rfl⟩ := List.mem_map.mp hx
  exact nameTemplate_of_method m p
    (canonicalMethods_no_space m (List.mem_of_mem_filter hm))

/-- The conclusion of claim C5: one rule per declared `(path, method)` pair
(the output length is the total operation count), every rule named by its
method and original template joined by a single space, and all names
distinct. -/
def RulesOnePerOp (paths : List (String × PathItem)) : Prop :=
  (renderRoutes (some paths)).length = (paths.map fun pi => countOps pi.2).sum ∧
  (∀ p item, ∀ r ∈ routesFor p item, r.name = r.condition.method ++ " " ++ p) ∧
  ((renderRoutes (some paths)).map fun r => r.name).Nodup

/-- C5: exactly one rule per declared operation, with unique
`METHOD template` names. -/
theorem renderRoutes_one_per_operation (paths : List (String × PathItem))
    (h : (pathKeys paths).Nodup) : RulesOnePerOp paths := by
  refine ⟨?_, fun p item => routesFor_name_format p item, ?_⟩
  · show ((sortStrings (pathKeys paths)).flatMap
      fun p => routesFor p (lookupItem paths p)).length = _
    rw [List.length_flatMap]
    have hmap : (sortStrings (pathKeys paths)).map
        (List.length ∘ fun p => routesFor p (lookupItem paths p)) =
        (sortStrings (pathKeys paths)).map fun p => countOps (lookupItem paths p) :=
      List.map_congr_left fun p _ => routesFor_length p (lookupItem paths p)
    rw [hmap]
    have hperm : ((sortStrings (pathKeys paths)).map
        fun p => countOps (lookupItem paths p)).Perm
        ((pathKeys paths).map fun p => countOps (lookupItem paths p)) :=
      (List.perm_insertionSort strLe (pathKeys paths)).map _
    rw [hperm.sum_eq, map_lookupItem_eq paths h]
  · show (((sortStrings (pathKeys paths)).flatMap
      fun p => routesFor p (lookupItem paths p)).map fun r => r.name).Nodup
    rw [List.map_flatMap]
    rw [List.nodup_flatMap]
    constructor
    · intro p _
      exact routesFor_names_nodup p (lookupItem paths p)
    · have hnd : (sortStrings (pathKeys paths)).Nodup :=
        ((List.perm_insertionSort strLe (pathKeys paths)).nodup_iff).mpr h
      refine List.Pairwise.imp_of_mem ?_ hnd
      intro p1 p2 _ _ hne
      intro x hx1 hx2
      exact hne (((routesFor_names_template p1 (lookupItem paths p1) x hx1).symm).trans
        (routesFor_names_template p2 (lookupItem paths p2) x hx2))

theorem renderRoutes_one_per_operation_witness :
    (pathKeys [("/b", ⟨none, some ⟨some [200]⟩, none, none, none, none, none⟩),
      ("/a", ⟨some ⟨none⟩, some ⟨some [500, 200]⟩, none, none, none, none,
        some ⟨some [404]⟩⟩)]).Nodup ∧
    RulesOnePerOp [("/b", ⟨none, some ⟨some [200]⟩, none, none, none, none, none⟩),
      ("/a", ⟨some ⟨none⟩, some ⟨some [500, 200]⟩, none, none, none, none,
        some ⟨some [404]⟩⟩)] :=
  ⟨by decide, renderRoutes_one_per_operation _ (by decide)⟩

/- ### Determinism across internal iteration orders (C9)

A Go map has no specified iteration order, so two runs over the same
document may present the paths map's entries, and each operation's responses
map's keys, in different orders.  Two documents are `DocEquiv` when they are
the same map presented in possibly different orders: same key set (no
duplicates, as map keys), and per key the same item up to a permutation of
each operation's declared status-code list. -/

/-- Same responses map, up to iteration order of its keys. -/
def RespEquiv : Option (List Int) → Option (List Int) → Prop
  | none, none => True
  | some l1, some l2 => l1.Perm l2
  | _, _ => False

/-- Same optional operation, up to responses iteration order. -/
def OpEquiv : Option Operation → Option Operation → Prop
  | none, none => True
  | some o1, some o2 => RespEquiv o1.responses o2.responses
  | _, _ => False

/-- Same path item, up to responses iteration orders. -/
def ItemEquiv (i1 i2 : PathItem) : Prop :=
  OpEquiv i1.delete i2.delete ∧ OpEquiv i1.get i2.get ∧
  OpEquiv i1.head i2.head ∧ OpEquiv i1.options i2.options ∧
  OpEquiv i1.patch i2.patch ∧ OpEquiv i1.post i2.post ∧
  OpEquiv i1.put i2.put

/-- Same optional path item. -/
def OptItemEquiv : Option PathItem → Option PathItem → Prop
  | none, none => True
  | some i1, some i2 => ItemEquiv i1 i2
  | _, _ => False

/-- Same paths map, up to iteration orders: equal key sets without
duplicates, and equivalent items under every key. -/
def DocEquiv (d1 d2 : List (String × PathItem)) : Prop :=
  (pathKeys d1).Nodup ∧ (pathKeys d2).Nodup ∧
  (pathKeys d1).Perm (pathKeys d2) ∧
  ∀ p ∈ pathKeys d1, OptItemEquiv (d1.lookup p) (d2.lookup p)

instance : (r1 r2 : Option (List Int)) → Decidable (RespEquiv r1 r2)
  | none, none => isTrue trivial
  | some l1, some l2 => inferInstanceAs (Decidable (l1.Perm l2))
  | none, some _ => isFalse fun h => h
  | some _, none => isFalse fun h => h

instance : (o1 o2 : Option Operation) → Decidable (OpEquiv o1 o2)
  | none, none => isTrue trivial
  | some o1, some o2 =>
    inferInstanceAs (Decidable (RespEquiv o1.responses o2.responses))
  | none, some _ => isFalse fun h => h
  | some _, none => isFalse fun h => h

instance (i1 i2 : PathItem) : Decidable (ItemEquiv i1 i2) := by
  unfold ItemEquiv
  infer_instance

instance : (i1 i2 : Option PathItem) → Decidable (OptItemEquiv i1 i2)
  | none, none => isTrue trivial
  | some i1, some i2 => inferInstanceAs (Decidable (ItemEquiv i1 i2))
  | none, some _ => isFalse fun h => h
  | some _, none => isFalse fun h => h

instance (d1 d2 : List (String × PathItem)) : Decidable (DocEquiv d1 d2) := by
  unfold DocEquiv
  infer_instance

/-- Sorting cancels any iteration order of the status codes. -/
theorem sortInts_perm_congr {l1 l2 : List Int} (h : l1.Perm l2) :
    sortInts l1 = sortInts l2 :=
  List.eq_of_perm_of_sorted
    (((List.perm_insertionSort _ l1).trans h).trans
      (List.perm_insertionSort _ l2).symm)
    (List.sorted_insertionSort _ l1) (List.sorted_insertionSort _ l2)

theorem toRspClasses_congr {r1 r2 : Option (List Int)} (h : RespEquiv r1 r2) :
    toRspClasses r1 = toRspClasses r2 := by
  cases r1 with
  | none => cases r2 with
    | none => rfl
    | some l2 => exact absurd h (fun hh => hh)
  | some l1 => cases r2 with
    | none => exact absurd h (fun hh => hh)
    | some l2 =>
      have hp : l1.Perm l2 := h
      show (sortInts l1).map _ = (sortInts l2).map _
      rw [sortInts_perm_congr hp]

theorem optRoute_congr (path rx m : String) {o1 o2 : Option Operation}
    (h : OpEquiv o1 o2) : optRoute path rx m o1 = optRoute path rx m o2 := by
  cases o1 with
  | none => cases o2 with
    | none => rfl
    | some _ => exact absurd h (fun hh => hh)
  | some op1 => cases o2 with
    | none => exact absurd h (fun hh => hh)
    | some op2 =>
      have hr : RespEquiv op1.responses op2.responses := h
      show [mkRouteSpec path rx m op1.responses] = [mkRouteSpec path rx m op2.responses]
      rw [show mkRouteSpec path rx m op1.responses = mkRouteSpec path rx m op2.responses
        from by rw [mkRouteSpec, mkRouteSpec, toRspClasses_congr hr]]

theorem routesFor_congr (p : String) {i1 i2 : PathItem} (h : ItemEquiv i1 i2) :
    routesFor p i1 = routesFor p i2 := by
  obtain ⟨e1, e2, e3, e4, e5, e6, e7⟩ := h
  rw [routesFor, routesFor, optRoute_congr _ _ _ e1, optRoute_congr _ _ _ e2,
    optRoute_congr _ _ _ e3, optRoute_congr _ _ _ e4, optRoute_congr _ _ _ e5,
    optRoute_congr _ _ _ e6, optRoute_congr _ _ _ e7]

theorem flatMap_congr_left {α β : Type} {l : List α} {f g : α → List β}
    (h : ∀ a ∈ l, f a = g a) : l.flatMap f = l.flatMap g := by
  induction l with
  | nil => rfl
  | cons a t ih =>
    rw [List.flatMap_cons, List.flatMap_cons, h a (List.mem_cons_self a t),
      ih fun a2 ha2 => h a2 (List.mem_cons_of_mem a ha2)]

/-- C9: the conversion is deterministic: two presentations of the same
document — the paths map and every responses map enumerated in arbitrary
orders — produce identical route lists. -/
theorem renderRoutes_deterministic (d1 d2 : List (String × PathItem))
    (h : DocEquiv d1 d2) : renderRoutes (some d1) = renderRoutes (some d2) := by
  obtain ⟨hn1, hn2, hperm, hpt⟩ := h
  have hsort : sortStrings (pathKeys d1) = sortStrings (pathKeys d2) :=
    List.eq_of_perm_of_sorted
      (((List.perm_insertionSort strLe _).trans hperm).trans
        (List.perm_insertionSort strLe _).symm)
      (List.sorted_insertionSort strLe _) (List.sorted_insertionSort strLe _)
  show (sortStrings (pathKeys d1)).flatMap (fun p => routesFor p (lookupItem d1 p)) =
    (sortStrings (pathKeys d2)).flatMap fun p => routesFor p (lookupItem d2 p)
  rw [← hsort]
  apply flatMap_congr_left
  intro p hp
  have hpk : p ∈ pathKeys d1 := (List.mem_insertionSort strLe).mp hp
  have heq := hpt p hpk
  rcases h1 : d1.lookup p with _ | i1 <;> rcases h2 : d2.lookup p with _ | i2 <;>
    rw [h1, h2] at heq
  · show routesFor p ((d1.lookup p).getD _) = routesFor p ((d2.lookup p).getD _)
    rw [h1, h2]
  · exact absurd heq (fun hh => hh)
  · exact absurd heq (fun hh => hh)
  · show routesFor p ((d1.lookup p).getD _) = routesFor p ((d2.lookup p).getD _)
    rw [h1, h2]
    exact routesFor_congr p heq

theorem renderRoutes_deterministic_witness :
    DocEquiv
      [("/a", ⟨none, some ⟨some [500, 200]⟩, none, none, none, none, none⟩),
        ("/b", ⟨none, none, none, none, none, some ⟨none⟩, none⟩)]
      [("/b", ⟨none, none, none, none, none, some ⟨none⟩, none⟩),
        ("/a", ⟨none, some ⟨some [200, 500]⟩, none, none, none, none, none⟩)] ∧
    renderRoutes
      (some [("/a", ⟨none, some ⟨some [500, 200]⟩, none, none, none, none, none⟩),
        ("/b", ⟨none, none, none, none, none, some ⟨none⟩, none⟩)]) =
    renderRoutes
      (some [("/b", ⟨none, none, none, none, none, some ⟨none⟩, none⟩),
        ("/a", ⟨none, some ⟨some [200, 500]⟩, none, none, none, none, none⟩)]) :=
  ⟨by decide, renderRoutes_deterministic _ _ (by decide)⟩

end Profile
